import Mathlib

/-!
# badgertest: page hashing into a key-value store

A shallow embedding of `badgertest.go`.  The program opens a Badger store,
parses its flags, reads the input file page by page into one reused buffer,
stores the SHA-256 digest of the buffer under the little-endian encoding of a
running page counter, and finally reports a rate.

Bytes are natural numbers below 256.  The outside world (store, command line,
file system, clock) is an explicit environment `Env`; the program state is
passed explicitly and every library call the program makes is logged in order.
-/

namespace Badgertest

/-! ## crypto/sha256 -/

/-- The round constants of SHA-256 (FIPS 180-4, section 4.2.2). -/
def K256 : List Nat := [
  0x428a2f98, 0x71374491, 0xb5c0fbcf, 0xe9b5dba5, 0x3956c25b, 0x59f111f1, 0x923f82a4, 0xab1c5ed5,
  0xd807aa98, 0x12835b01, 0x243185be, 0x550c7dc3, 0x72be5d74, 0x80deb1fe, 0x9bdc06a7, 0xc19bf174,
  0xe49b69c1, 0xefbe4786, 0x0fc19dc6, 0x240ca1cc, 0x2de92c6f, 0x4a7484aa, 0x5cb0a9dc, 0x76f988da,
  0x983e5152, 0xa831c66d, 0xb00327c8, 0xbf597fc7, 0xc6e00bf3, 0xd5a79147, 0x06ca6351, 0x14292967,
  0x27b70a85, 0x2e1b2138, 0x4d2c6dfc, 0x53380d13, 0x650a7354, 0x766a0abb, 0x81c2c92e, 0x92722c85,
  0xa2bfe8a1, 0xa81a664b, 0xc24b8b70, 0xc76c51a3, 0xd192e819, 0xd6990624, 0xf40e3585, 0x106aa070,
  0x19a4c116, 0x1e376c08, 0x2748774c, 0x34b0bcb5, 0x391c0cb3, 0x4ed8aa4a, 0x5b9cca4f, 0x682e6ff3,
  0x748f82ee, 0x78a5636f, 0x84c87814, 0x8cc70208, 0x90befffa, 0xa4506ceb, 0xbef9a3f7, 0xc67178f2]

/-- The initial hash value of SHA-256 (FIPS 180-4, section 5.3.3). -/
def init256 : List Nat := [
  0x6a09e667, 0xbb67ae85, 0x3c6ef372, 0xa54ff53a, 0x510e527f, 0x9b05688c, 0x1f83d9ab, 0x5be0cd19]

/-- Truncation to a 32-bit word. -/
def w32 (x : Nat) : Nat := x % 4294967296

/-- Rotation of a 32-bit word to the right. -/
def rotr (x n : Nat) : Nat := w32 ((x >>> n) ||| (x <<< (32 - n)))

def bigSigma0 (x : Nat) : Nat := rotr x 2 ^^^ rotr x 13 ^^^ rotr x 22

def bigSigma1 (x : Nat) : Nat := rotr x 6 ^^^ rotr x 11 ^^^ rotr x 25

def smallSigma0 (x : Nat) : Nat := rotr x 7 ^^^ rotr x 18 ^^^ (x >>> 3)

def smallSigma1 (x : Nat) : Nat := rotr x 17 ^^^ rotr x 19 ^^^ (x >>> 10)

def ch (x y z : Nat) : Nat := (x &&& y) ^^^ ((4294967295 - x) &&& z)

def maj (x y z : Nat) : Nat := (x &&& y) ^^^ (x &&& z) ^^^ (y &&& z)

/-- The big-endian 32-bit words of a block of bytes. -/
def beWords : List Nat → List Nat
  | a :: b :: c :: d :: rest => (a * 16777216 + b * 65536 + c * 256 + d) :: beWords rest
  | _ => []

/-- Extends a message schedule, kept newest word first, by `n` further words. -/
def extend : Nat → List Nat → List Nat
  | 0, w => w
  | n + 1, w =>
    extend n
      (w32 (smallSigma1 (w.getD 1 0) + w.getD 6 0 + smallSigma0 (w.getD 14 0) + w.getD 15 0) :: w)

/-- The 64 words of the message schedule of one 64-byte block. -/
def schedule (block : List Nat) : List Nat := (extend 48 (beWords block).reverse).reverse

/-- One round of the compression function on the working variables `a` to `h`. -/
def round (s : List Nat) (kw : Nat × Nat) : List Nat :=
  match s with
  | [a, b, c, d, e, f, g, h] =>
    let t1 := w32 (h + bigSigma1 e + ch e f g + kw.1 + kw.2)
    let t2 := w32 (bigSigma0 a + maj a b c)
    [w32 (t1 + t2), a, b, c, w32 (d + t1), e, f, g]
  | _ => s

/-- The compression function: 64 rounds, then the feed-forward addition. -/
def compress (h : List Nat) (block : List Nat) : List Nat :=
  List.zipWith (fun x y => w32 (x + y)) h ((K256.zip (schedule block)).foldl round h)

/-- The first `n` 64-byte blocks of a byte sequence. -/
def blocks : Nat → List Nat → List (List Nat)
  | 0, _ => []
  | n + 1, l => l.take 64 :: blocks n (l.drop 64)

/-- The `n` low bytes of `x`, most significant first. -/
def beBytes (n : Nat) (x : Nat) : List Nat :=
  (List.range n).reverse.map (fun i => (x >>> (8 * i)) % 256)

/-- Message padding: a one bit, zeros up to 56 modulo 64, the bit length in 8 bytes. -/
def pad (msg : List Nat) : List Nat :=
  msg ++ [128] ++ List.replicate ((119 - msg.length % 64) % 64) 0 ++ beBytes 8 (8 * msg.length)

/-- The digest of `data` as `sha256.Sum256` returns it: 32 bytes. -/
def Sum256 (data : List Nat) : List Nat :=
  let p := pad (data.map (fun b => b % 256))
  ((blocks (p.length / 64) p).foldl compress init256).flatMap (beBytes 4)

/-! ## encoding/binary -/

/-- The eight bytes `binary.LittleEndian.PutUint64` writes for `v`:
`b[i] = byte(v >> (8*i))`. -/
def PutUint64 (v : Nat) : List Nat :=
  [v % 256, (v >>> 8) % 256, (v >>> 16) % 256, (v >>> 24) % 256,
   (v >>> 32) % 256, (v >>> 40) % 256, (v >>> 48) % 256, (v >>> 56) % 256]

/-- The value `binary.LittleEndian.Uint64` reads from a byte slice; it needs
eight bytes (the library indexes `b[7]` first). -/
def Uint64 : List Nat → Option Nat
  | b0 :: b1 :: b2 :: b3 :: b4 :: b5 :: b6 :: b7 :: _ =>
    some (b0 ||| b1 <<< 8 ||| b2 <<< 16 ||| b3 <<< 24 |||
          b4 <<< 32 ||| b5 <<< 40 ||| b6 <<< 48 ||| b7 <<< 56)
  | _ => none

/-! ## The program state and its environment -/

/-- The constant `SHASize`. -/
def SHASize : Nat := 32

/-- Go error values: `io.EOF` and all the others. -/
inductive Error where
  | EOF
  | other (code : Nat)
  deriving DecidableEq, Repr

/-- What a panic carries. -/
inductive PanicValue where
  | err (e : Error)
  | str (msg : String)
  | divideByZero
  | makeslice
  | nilDb
  deriving DecidableEq, Repr

/-- How a run of the program ends. -/
inductive Outcome where
  | returned
  | fatal (e : Error)
  | usageExit
  | panicked (p : PanicValue)
  deriving DecidableEq, Repr

/-- The store and file operations the program performs. -/
inductive Op where
  | dbOpen
  | fileOpen (name : String)
  | fileStat
  | fileRead (count : Nat)
  | dbUpdate (key val : List Nat)
  | dbClose
  deriving DecidableEq, Repr

/-- The lines the program prints. -/
inductive Output where
  | line (msg : String)
  | usage
  | echo (pageSize : Int) (inFileName : String)
  | report (pageCount : Nat) (fSz : Int) (rate : Int)
  deriving DecidableEq, Repr

/-- The records of a store: key and value bytes, oldest write first. -/
abbrev Records := List (List Nat × List Nat)

/-- The value a store holds at a key. -/
def Records.get (r : Records) (key : List Nat) : Option (List Nat) :=
  (r.find? (fun e => e.1 = key)).map Prod.snd

/-- The effect of `txn.Set` once committed: the key holds the new value,
whatever it held before. -/
def Records.set (r : Records) (key val : List Nat) : Records :=
  r.filter (fun e => e.1 ≠ key) ++ [(key, val)]

/-- An open Badger store: its records and the errors its coming `Update`
calls return (none once the list is used up). -/
structure DB where
  records : Records
  commits : List (Option Error)
  deriving DecidableEq, Repr

/-- One answer of `Read`: the bytes it delivers and its error. -/
structure ReadReply where
  bytes : List Nat
  err : Option Error
  deriving DecidableEq, Repr

/-- An open file: the result of `Stat` and the answers of its successive
`Read` calls (a file whose answers are used up is at its end: 0, `io.EOF`). -/
structure FileHandle where
  stat : Except Error Int
  reads : List ReadReply

/-- The values of the flags after `flag.Parse`, and the remaining arguments. -/
structure Flags where
  pgsz : Int
  cmethod : Int
  terse : Bool
  loglevel : Int
  h : Bool
  args : List String

/-- The world a run meets.  `maxAlloc` is the allocation limit of the Go
runtime: `make([]byte, n)` panics for every `n` above it. -/
structure Env where
  db : Except Error DB
  flagErr : Bool
  flags : Flags
  fs : String → Except Error FileHandle
  durationSecs : Int
  maxAlloc : Nat

/-- The package-level variables. -/
structure Globals where
  pageSize : Int
  terse : Bool
  maxPages : Int
  logLevel : Int
  inFileName : String
  comprMethod : Int
  printHeader : Bool
  db : Option DB
  deriving DecidableEq, Repr

/-- The state of a run: the globals, the page counter of `main`, and the
operations and output so far, in order. -/
structure State where
  g : Globals
  pageCount : Nat
  ops : List Op
  out : List Output
  deriving DecidableEq, Repr

/-- The state at program start: `pageSize` is 16384, everything else zero. -/
def State.initial : State :=
  ⟨⟨16384, false, 0, 0, "", 0, false, none⟩, 0, [], []⟩

def State.op (s : State) (o : Op) : State := ⟨s.g, s.pageCount, s.ops ++ [o], s.out⟩

def State.print (s : State) (o : Output) : State := ⟨s.g, s.pageCount, s.ops, s.out ++ [o]⟩

/-- The records of the store the state holds open. -/
def State.records (s : State) : Records :=
  match s.g.db with
  | some d => d.records
  | none => []

/-- A step of the program either goes on or ends the run. -/
inductive Step where
  | next (s : State)
  | halt (o : Outcome) (s : State)
  deriving DecidableEq, Repr

def Step.andThen (r : Step) (f : State → Step) : Step :=
  match r with
  | .next s => f s
  | .halt o s => .halt o s

def CompressGzip : Int := 0

def CompressLz4 : Int := 1

/-! ## The functions of badgertest.go -/

/-- Opens the store and leaves it in the global `db`; `log.Fatal` on error. -/
def openDb (env : Env) (s : State) : Step :=
  let s := s.op .dbOpen
  match env.db with
  | .error e => .halt (.fatal e) s
  | .ok d => .next ⟨⟨s.g.pageSize, s.g.terse, s.g.maxPages, s.g.logLevel, s.g.inFileName,
      s.g.comprMethod, s.g.printHeader, some d⟩, s.pageCount, s.ops, s.out⟩

/-- If there is an error, print the message and panic with the error. -/
def checkError (err : Option Error) (msg : String) (s : State) : Step :=
  match err with
  | some e => .halt (.panicked (.err e)) (s.print (.line msg))
  | none => .next s

/-- Echo the input arguments. -/
def echoArgs (s : State) : Step :=
  .next (s.print (.echo s.g.pageSize s.g.inFileName))

/-- Parse the command line into the globals. -/
def parseArgs (env : Env) (s : State) : Step :=
  if env.flagErr then .halt .usageExit (s.print .usage)
  else if env.flags.args.length = 0 then
    .halt (.panicked (.str "Bad args")) (s.print .usage)
  else
    let inFileName := env.flags.args.headD ""
    if env.flags.cmethod ≠ CompressGzip ∧ env.flags.cmethod ≠ CompressLz4 then
      .halt (.panicked (.str "Wrong compression method supplied"))
        ⟨⟨s.g.pageSize, s.g.terse, s.g.maxPages, s.g.logLevel, inFileName,
          s.g.comprMethod, s.g.printHeader, s.g.db⟩, s.pageCount, s.ops, s.out⟩
    else
      .next ⟨⟨env.flags.pgsz, env.flags.terse, s.g.maxPages, env.flags.loglevel, inFileName,
        env.flags.cmethod, env.flags.h, s.g.db⟩, s.pageCount, s.ops, s.out⟩

/-- The `db.Update` call of `setKV`: the next commit answer decides whether
the record is written. -/
def dbUpdate (d : DB) (key val : List Nat) : Option Error × DB :=
  match d.commits with
  | some e :: rest => (some e, ⟨d.records, rest⟩)
  | none :: rest => (none, ⟨d.records.set key val, rest⟩)
  | [] => (none, ⟨d.records.set key val, []⟩)

/-- Set the key (the page counter) and associate the digest with it. -/
def setKV (key : Nat) (val : List Nat) (s : State) : Step :=
  let valBuf := val.take val.length
  let keyBuf := PutUint64 key
  let s := s.op (.dbUpdate keyBuf valBuf)
  match s.g.db with
  | none => .halt (.panicked .nilDb) s
  | some d =>
    let r := dbUpdate d keyBuf valBuf
    checkError r.1 "Update error"
      ⟨⟨s.g.pageSize, s.g.terse, s.g.maxPages, s.g.logLevel, s.g.inFileName,
        s.g.comprMethod, s.g.printHeader, some r.2⟩, s.pageCount, s.ops, s.out⟩

/-- The buffer after a `Read` that delivers `bytes` into `data`: at most
`len(data)` bytes are stored at its front, the rest of the buffer is kept. -/
def readInto (bytes data : List Nat) : List Nat :=
  bytes.take (min bytes.length data.length) ++ data.drop (min bytes.length data.length)

/-- The read loop of `main`, one iteration per answer of `Read`. -/
def readLoop : List ReadReply → List Nat → State → Step
  | [], _, s => .next (s.op (.fileRead 0))
  | r :: rest, data, s =>
    let count := min r.bytes.length data.length
    let data := readInto r.bytes data
    let s := s.op (.fileRead count)
    if count = 0 ∨ r.err = some .EOF then .next s
    else
      (checkError r.err "Read error" s).andThen fun s =>
      let sum := Sum256 data
      (setKV s.pageCount sum s).andThen fun s =>
      readLoop rest data ⟨s.g, (s.pageCount + 1) % 2 ^ 64, s.ops, s.out⟩

/-- Conversion of an integer to the `int64` with the same low 64 bits. -/
def toInt64 (x : Int) : Int := (x + 2 ^ 63) % 2 ^ 64 - 2 ^ 63

/-- The program.  `env.durationSecs` is the value of
`int64(elapsed.Seconds())`; `make([]byte, pageSize)` panics for a negative
length and for one above `env.maxAlloc`. -/
def main (env : Env) : Step :=
  (((openDb env State.initial).andThen (parseArgs env)).andThen echoArgs).andThen fun s =>
  match env.fs s.g.inFileName with
  | .error e => checkError (some e) "Open error" (s.op (.fileOpen s.g.inFileName))
  | .ok fId1 =>
    let s := s.op (.fileOpen s.g.inFileName)
    match fId1.stat with
    | .error e => checkError (some e) "File Stat" (s.op .fileStat)
    | .ok fSz =>
      let s := s.op .fileStat
      if s.g.pageSize < 0 ∨ (env.maxAlloc : Int) < s.g.pageSize then
        .halt (.panicked .makeslice) s
      else
        let data := List.replicate s.g.pageSize.toNat 0
        (readLoop fId1.reads data s).andThen fun s =>
        let durationSecs := env.durationSecs
        if durationSecs = 0 then .halt (.panicked .divideByZero) s
        else
          let rate := toInt64 (Int.tdiv fSz durationSecs)
          let s := s.print (.report s.pageCount fSz rate)
          .halt .returned (s.op .dbClose)

/-- The state a run ends in. -/
def Step.state : Step → State
  | .next s => s
  | .halt _ s => s

/-- The way a run ends (`returned` for a step that goes on). -/
def Step.outcome : Step → Outcome
  | .next _ => .returned
  | .halt o _ => o

/-! ## Regular files -/

/-- The answers a regular file with the given unread content gives to
successive `Read` calls that transfer up to `P` bytes each: every call
delivers the next `min(P, remaining)` bytes without error, until nothing
remains. -/
def fileReads (P : Nat) : Nat → List Nat → List ReadReply
  | 0, _ => []
  | fuel + 1, rest =>
    if rest = [] then []
    else ⟨rest.take P, none⟩ :: fileReads P fuel (rest.drop P)

/-- A regular file of the given content, read with a buffer of `P` bytes, when
one `Read` call transfers at most `maxRW` bytes (the limit `os.File.Read`
and the `read` system call put on a single transfer). -/
def regularFile (maxRW P : Nat) (content : List Nat) : FileHandle :=
  ⟨.ok content.length, fileReads (min P maxRW) content.length content⟩

/-- The environment of a run with page size `P` on a regular file of the given
content: the store opens with the given records and accepts every write, the
file argument is present, the compression method is 0. -/
def fileEnv (P : Nat) (content : List Nat) (records : Records) (durationSecs : Int)
    (maxAlloc maxRW : Nat) : Env :=
  ⟨.ok ⟨records, []⟩, false, ⟨P, 0, true, 0, false, ["input"]⟩,
   fun _ => .ok (regularFile maxRW P content), durationSecs, maxAlloc⟩

/-- A run with page size `P` on a regular file of the given content against a
store that holds `recs`, where one `Read` transfers at most `maxRW` bytes:
the store opens and accepts every write, the flags parse, a file argument is
present, the compression method is 0 or 1, and the file opens, answers `Stat`,
and answers every `Read` with the next `min(P, maxRW, remaining)` bytes.  The
other flags, the file name, the size `Stat` reports, the allocation limit and
the duration are free. -/
def RegularRun (env : Env) (maxRW P : Nat) (content : List Nat) (recs : Records) : Prop :=
  (∃ commits, env.db = .ok ⟨recs, commits⟩ ∧ ∀ c ∈ commits, c = none) ∧
    env.flagErr = false ∧
    env.flags.args ≠ [] ∧
    (env.flags.cmethod = CompressGzip ∨ env.flags.cmethod = CompressLz4) ∧
    env.flags.pgsz = (P : Int) ∧
    ∃ fSz, env.fs (env.flags.args.headD "") =
      .ok ⟨.ok fSz, (regularFile maxRW P content).reads⟩

/-! ## What a run reads, hashes and writes -/

/-- The bytes the `i`-th `Read` of a regular file delivers into a buffer of
`P` bytes: the file's bytes `i*P` up to `(i+1)*P - 1`, as far as they exist. -/
def page (P : Nat) (content : List Nat) (i : Nat) : List Nat := (content.drop (i * P)).take P

/-- The bytes of page `i` followed by what the buffer held behind them before
that read: the bytes of page `i - 1`, or of the fresh buffer `data0` for the
first page. -/
def hashed (data0 : List Nat) (P : Nat) (content : List Nat) (i : Nat) : List Nat :=
  page P content i ++
    (if i = 0 then data0 else page P content (i - 1)).drop (page P content i).length

/-- The records the `db.Update` calls of a run were given, in order. -/
def updates : List Op → Records
  | [] => []
  | .dbUpdate key val :: rest => (key, val) :: updates rest
  | _ :: rest => updates rest

/-- The successive contents of the buffer of `main` under a list of answers. -/
def buffers : List ReadReply → List Nat → List (List Nat)
  | [], _ => []
  | r :: rest, data => readInto r.bytes data :: buffers rest (readInto r.bytes data)

/-- The records written for a list of hashed buffers, counting from `n`. -/
def writes : Nat → List (List Nat) → Records
  | _, [] => []
  | n, b :: bs => (PutUint64 n, Sum256 b) :: writes (n + 1) bs

/-- The store after a list of writes. -/
def setAll (recs : Records) (ws : Records) : Records :=
  ws.foldl (fun r e => r.set e.1 e.2) recs

/-! # Theorems -/

/-! ## Key encoding -/

theorem or_shiftLeft_eq_add (a b i : Nat) (h : a < 2 ^ i) : a ||| b <<< i = a + b * 2 ^ i := by
  rw [Nat.shiftLeft_eq, Nat.lor_comm, Nat.mul_comm b, ← Nat.mul_add_lt_is_or h, Nat.add_comm]

theorem Uint64_PutUint64 (k : Nat) (hk : k < 2 ^ 64) : Uint64 (PutUint64 k) = some k := by
  simp only [PutUint64, Uint64, Nat.shiftRight_eq_div_pow, Option.some.injEq]
  rw [or_shiftLeft_eq_add _ _ 8 (by omega), or_shiftLeft_eq_add _ _ 16 (by omega),
    or_shiftLeft_eq_add _ _ 24 (by omega), or_shiftLeft_eq_add _ _ 32 (by omega),
    or_shiftLeft_eq_add _ _ 40 (by omega), or_shiftLeft_eq_add _ _ 48 (by omega),
    or_shiftLeft_eq_add _ _ 56 (by omega)]
  omega

theorem PutUint64_injective (j k : Nat) (hj : j < 2 ^ 64) (hk : k < 2 ^ 64)
    (h : PutUint64 j = PutUint64 k) : j = k := by
  have h1 := Uint64_PutUint64 j hj
  rw [h, Uint64_PutUint64 k hk] at h1
  exact (Option.some.inj h1).symm

/-! ## Digest length -/

/-- The embedding of SHA-256 gives the digests of the standard test messages:
the empty message and the three bytes of "abc". -/
theorem Sum256_test_vectors :
    Sum256 [] = [0xe3, 0xb0, 0xc4, 0x42, 0x98, 0xfc, 0x1c, 0x14, 0x9a, 0xfb, 0xf4, 0xc8,
        0x99, 0x6f, 0xb9, 0x24, 0x27, 0xae, 0x41, 0xe4, 0x64, 0x9b, 0x93, 0x4c, 0xa4, 0x95,
        0x99, 0x1b, 0x78, 0x52, 0xb8, 0x55] ∧
      Sum256 [0x61, 0x62, 0x63] = [0xba, 0x78, 0x16, 0xbf, 0x8f, 0x01, 0xcf, 0xea, 0x41,
        0x41, 0x40, 0xde, 0x5d, 0xae, 0x22, 0x23, 0xb0, 0x03, 0x61, 0xa3, 0x96, 0x17, 0x7a,
        0x9c, 0xb4, 0x10, 0xff, 0x61, 0xf2, 0x00, 0x15, 0xad] := by
  set_option maxRecDepth 100000 in decide

theorem round_length (s : List Nat) (kw : Nat × Nat) : (round s kw).length = s.length := by
  unfold round
  split <;> simp

theorem foldl_round_length (l : List (Nat × Nat)) (s : List Nat) :
    (l.foldl round s).length = s.length := by
  induction l generalizing s with
  | nil => rfl
  | cons x xs ih => rw [List.foldl_cons, ih, round_length]

theorem compress_length (h block : List Nat) : (compress h block).length = h.length := by
  simp [compress, foldl_round_length]

theorem foldl_compress_length (bs : List (List Nat)) (h : List Nat) :
    (bs.foldl compress h).length = h.length := by
  induction bs generalizing h with
  | nil => rfl
  | cons x xs ih => rw [List.foldl_cons, ih, compress_length]

theorem flatMap_beBytes_length (l : List Nat) : (l.flatMap (beBytes 4)).length = 4 * l.length := by
  induction l with
  | nil => rfl
  | cons x xs ih => simp [List.flatMap_cons, ih, beBytes]; omega

theorem Sum256_length (data : List Nat) : (Sum256 data).length = SHASize := by
  simp only [Sum256, flatMap_beBytes_length, foldl_compress_length]
  rfl


theorem updates_append (a b : List Op) : updates (a ++ b) = updates a ++ updates b := by
  induction a with
  | nil => rfl
  | cons x xs ih => cases x <;> simp [updates, ih]

theorem readInto_length (bytes data : List Nat) : (readInto bytes data).length = data.length := by
  simp [readInto]

theorem dbUpdate_accepts (d : DB) (key val : List Nat) (hc : ∀ c ∈ d.commits, c = none) :
    dbUpdate d key val = (none, ⟨d.records.set key val, d.commits.tail⟩) := by
  unfold dbUpdate
  cases hd : d.commits with
  | nil => rfl
  | cons c rest =>
    have := hc c (by rw [hd]; exact List.mem_cons_self _ _)
    subst this
    rfl

theorem readLoop_regular (script : List ReadReply) : ∀ (data : List Nat) (s : State) (d : DB),
    s.g.db = some d → (∀ c ∈ d.commits, c = none) →
    (∀ r ∈ script, r.err = none ∧ r.bytes ≠ []) → 0 < data.length →
    s.pageCount + script.length < 2 ^ 64 →
    ∃ s2, readLoop script data s = .next s2 ∧
      s2.records = setAll d.records (writes s.pageCount (buffers script data)) ∧
      s2.pageCount = s.pageCount + script.length ∧
      s2.out = s.out ∧
      updates s2.ops = updates s.ops ++ writes s.pageCount (buffers script data) := by
  induction script with
  | nil =>
    intro data s d hd hc _ _ hn
    refine ⟨s.op (.fileRead 0), rfl, ?_, ?_, rfl, ?_⟩
    · simp [State.op, State.records, hd, buffers, writes, setAll]
    · simp [State.op]
    · simp [State.op, updates_append, updates, buffers, writes]
  | cons r rest ih =>
    intro data s d hd hc hr hdata hn
    have hr0 := hr r (List.mem_cons_self _ _)
    have hlen : 0 < r.bytes.length := List.length_pos.mpr hr0.2
    have hcount : ¬ (min r.bytes.length data.length = 0) := by omega
    simp only [List.length_cons] at hn
    have hpc : (s.pageCount + 1) % 2 ^ 64 = s.pageCount + 1 := Nat.mod_eq_of_lt (by omega)
    obtain ⟨s2, h1, h2, h3, h4, h5⟩ := ih (readInto r.bytes data)
      ⟨⟨s.g.pageSize, s.g.terse, s.g.maxPages, s.g.logLevel, s.g.inFileName, s.g.comprMethod,
        s.g.printHeader, some ⟨d.records.set (PutUint64 s.pageCount)
          (Sum256 (readInto r.bytes data)), d.commits.tail⟩⟩, s.pageCount + 1,
        s.ops ++ [.fileRead (min r.bytes.length data.length)] ++
          [.dbUpdate (PutUint64 s.pageCount) (Sum256 (readInto r.bytes data))], s.out⟩
      ⟨d.records.set (PutUint64 s.pageCount) (Sum256 (readInto r.bytes data)), d.commits.tail⟩
      rfl (fun c hc2 => hc c (List.mem_of_mem_tail hc2))
      (fun x hx => hr x (List.mem_cons_of_mem _ hx))
      (by rw [readInto_length]; exact hdata) (by simp only; omega)
    refine ⟨s2, ?_, ?_, ?_, h4, ?_⟩
    · rw [← h1]
      simp only [readLoop, hcount, hr0.1, false_or, if_false, checkError, Step.andThen, setKV,
        State.op, hd, dbUpdate_accepts d _ _ hc, List.take_length, hpc]
      simp
    · rw [h2]; simp [buffers, writes, setAll]
    · rw [h3]; simp only [List.length_cons]; omega
    · rw [h5]; simp [buffers, writes, updates_append, updates]

theorem fileReads_regular (P : Nat) (hP : 0 < P) (fuel : Nat) : ∀ (content : List Nat),
    ∀ r ∈ fileReads P fuel content, r.err = none ∧ r.bytes ≠ [] := by
  induction fuel with
  | zero => intro content r hr; simp [fileReads] at hr
  | succ n ih =>
    intro content r hr
    unfold fileReads at hr
    split at hr
    · simp at hr
    · rename_i hne
      rcases List.mem_cons.mp hr with h | h
      · subst h
        refine ⟨rfl, ?_⟩
        cases content with
        | nil => exact absurd rfl hne
        | cons x xs =>
          obtain ⟨p, rfl⟩ : ∃ p, P = p + 1 := ⟨P - 1, by omega⟩
          simp
      · exact ih _ r h

theorem fileReads_length_le (P : Nat) (fuel : Nat) (content : List Nat) :
    (fileReads P fuel content).length ≤ fuel := by
  induction fuel generalizing content with
  | zero => simp [fileReads]
  | succ n ih =>
    unfold fileReads
    split
    · simp
    · simp only [List.length_cons]; have := ih (content.drop P); omega

/-- The state a run on a regular file leaves its loop in. -/
theorem main_regular (env : Env) (maxRW P : Nat) (content : List Nat) (recs : Records)
    (hrun : RegularRun env maxRW P content recs) (hP : 0 < P) (hrw : 0 < maxRW)
    (halloc : P ≤ env.maxAlloc) (hlen : content.length < 2 ^ 64) :
    (main env).state.records =
        setAll recs (writes 0 (buffers (fileReads (min P maxRW) content.length content)
          (List.replicate P 0))) ∧
      (main env).state.pageCount = (fileReads (min P maxRW) content.length content).length ∧
      updates (main env).state.ops =
        writes 0 (buffers (fileReads (min P maxRW) content.length content)
          (List.replicate P 0)) := by
  obtain ⟨⟨commits, hdb, hcommits⟩, hflag, hargs, hcm, hpg, fSz, hfs⟩ := hrun
  simp only [regularFile] at hfs
  have hargs2 : ¬ env.flags.args.length = 0 := fun h => hargs (List.length_eq_zero.mp h)
  have hcm2 : ¬ (env.flags.cmethod ≠ CompressGzip ∧ env.flags.cmethod ≠ CompressLz4) := by
    rcases hcm with h | h
    · exact fun hn => hn.1 h
    · exact fun hn => hn.2 h
  have hsize : ¬ ((P : Int) < 0 ∨ (env.maxAlloc : Int) < (P : Int)) := by omega
  obtain ⟨s2, h1, h2, h3, _, h5⟩ := readLoop_regular
    (fileReads (min P maxRW) content.length content) (List.replicate P 0)
    ⟨⟨(P : Int), env.flags.terse, 0, env.flags.loglevel, env.flags.args.headD "",
      env.flags.cmethod, env.flags.h, some ⟨recs, commits⟩⟩, 0,
      [.dbOpen, .fileOpen (env.flags.args.headD ""), .fileStat],
      [.echo P (env.flags.args.headD "")]⟩
    ⟨recs, commits⟩ rfl hcommits
    (fileReads_regular (min P maxRW) (by omega) _ content) (by simpa using hP)
    (by have := fileReads_length_le (min P maxRW) content.length content; simp only; omega)
  have hmain : main env =
      if env.durationSecs = 0 then .halt (.panicked .divideByZero) s2
      else .halt .returned ((s2.print (.report s2.pageCount fSz
        (toInt64 (Int.tdiv fSz env.durationSecs)))).op .dbClose) := by
    simp only [main, openDb, parseArgs, echoArgs, State.initial, State.op, State.print,
      Step.andThen, hdb, hflag, hargs2, hcm2, hpg, hfs, hsize, if_false, Bool.false_eq_true,
      List.nil_append, List.append_assoc, List.singleton_append, List.cons_append,
      Int.toNat_ofNat, h1]
  rw [hmain]
  simp only [updates] at h5
  split
  · simp [Step.state, h2, h3, h5]
  · simp [Step.state, State.records, State.op, State.print, h3, h5, updates_append, updates,
      ← h2]

/-- A page size above the allocation limit: `make` panics before the first
`Read`, and the store is left as it was opened. -/
theorem main_oversized (env : Env) (maxRW P : Nat) (content : List Nat) (recs : Records)
    (hrun : RegularRun env maxRW P content recs) (halloc : env.maxAlloc < P) :
    (main env).outcome = .panicked .makeslice ∧
      (main env).state.records = recs ∧
      (main env).state.pageCount = 0 ∧
      updates (main env).state.ops = [] := by
  obtain ⟨⟨commits, hdb, hcommits⟩, hflag, hargs, hcm, hpg, fSz, hfs⟩ := hrun
  have hargs2 : ¬ env.flags.args.length = 0 := fun h => hargs (List.length_eq_zero.mp h)
  have hcm2 : ¬ (env.flags.cmethod ≠ CompressGzip ∧ env.flags.cmethod ≠ CompressLz4) := by
    rcases hcm with h | h
    · exact fun hn => hn.1 h
    · exact fun hn => hn.2 h
  have hsize : (P : Int) < 0 ∨ (env.maxAlloc : Int) < (P : Int) := Or.inr (by omega)
  have hmain : main env = .halt (.panicked .makeslice)
      ⟨⟨(P : Int), env.flags.terse, 0, env.flags.loglevel, env.flags.args.headD "",
        env.flags.cmethod, env.flags.h, some ⟨recs, commits⟩⟩, 0,
        [.dbOpen, .fileOpen (env.flags.args.headD ""), .fileStat],
        [.echo P (env.flags.args.headD "")]⟩ := by
    simp only [main, openDb, parseArgs, echoArgs, State.initial, State.op, State.print,
      Step.andThen, hdb, hflag, hargs2, hcm2, hpg, hfs, hsize, if_false, if_true,
      Bool.false_eq_true, List.nil_append, List.append_assoc, List.singleton_append,
      List.cons_append]
  rw [hmain]
  exact ⟨rfl, rfl, rfl, rfl⟩

theorem fileEnv_regular (P : Nat) (content : List Nat) (recs : Records) (secs : Int)
    (maxAlloc maxRW : Nat) :
    RegularRun (fileEnv P content recs secs maxAlloc maxRW) maxRW P content recs :=
  ⟨⟨[], rfl, by simp⟩, rfl, by simp [fileEnv], Or.inl rfl, rfl, content.length, rfl⟩

theorem ceil_step (P len : Nat) (hP : 0 < P) (hlen : 0 < len) :
    (len + P - 1) / P = (len - P + P - 1) / P + 1 := by
  rcases Nat.lt_or_ge len P with h | h
  · have h1 : len - P + P - 1 = P - 1 := by omega
    rw [h1, Nat.div_eq_of_lt (by omega : P - 1 < P)]
    have h2 : len + P - 1 = (len - 1) + P := by omega
    rw [h2, Nat.add_div_right _ hP, Nat.div_eq_of_lt (by omega : len - 1 < P)]
  · have h1 : len - P + P - 1 = len - 1 := by omega
    have h2 : len + P - 1 = (len - 1) + P := by omega
    rw [h1, h2, Nat.add_div_right _ hP]

theorem page_drop (P : Nat) (content : List Nat) (j : Nat) :
    page P (content.drop P) j = page P content (j + 1) := by
  simp only [page, List.drop_drop]
  congr 2
  ring

theorem buffers_fileReads (P : Nat) (hP : 0 < P) (fuel : Nat) :
    ∀ (content data : List Nat), content.length ≤ fuel → data.length = P →
    buffers (fileReads P fuel content) data =
      (List.range ((content.length + P - 1) / P)).map (hashed data P content) := by
  induction fuel with
  | zero =>
    intro content data hc _
    have : content = [] := List.length_eq_zero.mp (by omega)
    subst this
    simp [fileReads, buffers, Nat.div_eq_of_lt (by omega : P - 1 < P)]
  | succ n ih =>
    intro content data hc hd
    unfold fileReads
    split
    · rename_i h
      subst h
      simp [buffers, Nat.div_eq_of_lt (by omega : P - 1 < P)]
    · rename_i hne
      have hpos : 0 < content.length := List.length_pos.mpr hne
      have h0 : readInto (content.take P) data = hashed data P content 0 := by
        simp [readInto, hashed, page, hd, Nat.min_assoc]
      rw [ceil_step P content.length hP hpos, List.range_succ_eq_map, List.map_cons,
        List.map_map]
      simp only [buffers]
      rw [ih (content.drop P) (readInto (content.take P) data)
        (by rw [List.length_drop]; omega) (by rw [readInto_length]; exact hd), h0]
      congr 1
      rw [List.length_drop]
      apply List.map_congr_left
      intro j hj
      have hj2 := List.mem_range.mp hj
      simp only [Function.comp, hashed, page_drop, Nat.succ_eq_add_one, Nat.add_sub_cancel,
        Nat.add_one_ne_zero, if_false]
      congr 2
      by_cases hj0 : j = 0
      · subst hj0
        have hlong : P < content.length := by
          by_contra hcon
          have : content.length - P + P - 1 = P - 1 := by omega
          rw [this, Nat.div_eq_of_lt (by omega : P - 1 < P)] at hj2
          omega
        have : (content.take P).length = P := by rw [List.length_take]; omega
        simp [page, readInto, this, hd]
      · obtain ⟨i, rfl⟩ : ∃ i, j = i + 1 := ⟨j - 1, by omega⟩
        simp [page_drop]


theorem buffers_length (script : List ReadReply) (data : List Nat) :
    (buffers script data).length = script.length := by
  induction script generalizing data with
  | nil => rfl
  | cons r rest ih => simp [buffers, ih]

theorem fileReads_length (P : Nat) (hP : 0 < P) (content : List Nat) :
    (fileReads P content.length content).length = (content.length + P - 1) / P := by
  rw [← buffers_length _ (List.replicate P 0),
    buffers_fileReads P hP _ content _ (Nat.le_refl _) (by simp)]
  simp

theorem writes_range (m : Nat) : ∀ (n : Nat) (f : Nat → List Nat),
    writes n ((List.range m).map f) =
      (List.range m).map (fun i => (PutUint64 (n + i), Sum256 (f i))) := by
  induction m with
  | zero => intro n f; rfl
  | succ m ih =>
    intro n f
    rw [List.range_succ_eq_map, List.map_cons, List.map_map, writes, ih, List.map_cons,
      List.map_map]
    simp only [Nat.add_zero, List.cons.injEq, true_and]
    apply List.map_congr_left
    intro i _
    simp only [Function.comp, Nat.succ_eq_add_one]
    congr 2
    omega

theorem writes_length (n : Nat) (bufs : List (List Nat)) : (writes n bufs).length = bufs.length := by
  induction bufs generalizing n with
  | nil => rfl
  | cons b bs ih => simp [writes, ih]

/-- Writing records under fresh, pairwise distinct keys appends them. -/
theorem setAll_fresh (ws : Records) : ∀ (recs : Records), (ws.map Prod.fst).Nodup →
    (∀ e ∈ recs, e.1 ∉ ws.map Prod.fst) → setAll recs ws = recs ++ ws := by
  induction ws with
  | nil => intro recs _ _; simp [setAll]
  | cons w ws ih =>
    intro recs hnd hfresh
    rw [List.map_cons, List.nodup_cons] at hnd
    have hfilter : recs.filter (fun e => e.1 ≠ w.1) = recs := by
      apply List.filter_eq_self.mpr
      intro e he
      have := hfresh e he
      simp only [List.map_cons, List.mem_cons, not_or] at this
      simpa using this.1
    have hset : recs.set w.1 w.2 = recs ++ [w] := by
      unfold Records.set
      rw [hfilter]
    have hstep : setAll recs (w :: ws) = setAll (recs ++ [w]) ws := by
      rw [← hset]; rfl
    rw [hstep, ih (recs ++ [w]) hnd.2, List.append_assoc, List.singleton_append]
    intro e he
    rcases List.mem_append.mp he with h | h
    · have := hfresh e h
      simp only [List.map_cons, List.mem_cons, not_or] at this
      exact this.2
    · rw [List.mem_singleton.mp h]; exact hnd.1

theorem get_set_self (recs : Records) (k v : List Nat) : (recs.set k v).get k = some v := by
  simp only [Records.get, Records.set, List.find?_append]
  have : (recs.filter (fun e => e.1 ≠ k)).find? (fun e => e.1 = k) = none := by
    rw [List.find?_eq_none]
    intro e he
    simpa using (List.mem_filter.mp he).2
  simp [this]

theorem get_set_other (recs : Records) (k k2 v : List Nat) (h : k2 ≠ k) :
    (recs.set k2 v).get k = recs.get k := by
  simp only [Records.get, Records.set, List.find?_append]
  have h1 : (recs.filter (fun e => e.1 ≠ k2)).find? (fun e => decide (e.1 = k)) =
      recs.find? (fun e => decide (e.1 = k)) := by
    induction recs with
    | nil => rfl
    | cons x xs ih =>
      rw [List.filter_cons]
      split
      · simp only [List.find?_cons, ih]
      · rename_i hx
        have hx2 : x.1 = k2 := by simpa using hx
        have hxk : decide (x.1 = k) = false := by simp [hx2, h]
        simp only [List.find?_cons, hxk, ih]
  rw [h1]
  simp [List.find?_cons, h]

/-- After writes under pairwise distinct keys, each written key holds the
value written under it, whatever the store held before. -/
theorem get_setAll (ws : Records) : ∀ (recs : Records) (k v : List Nat),
    (ws.map Prod.fst).Nodup → (k, v) ∈ ws → (setAll recs ws).get k = some v := by
  have hother : ∀ (ws : Records) (recs : Records) (k : List Nat), k ∉ ws.map Prod.fst →
      (setAll recs ws).get k = recs.get k := by
    intro ws
    induction ws with
    | nil => intro recs k _; rfl
    | cons w ws ih =>
      intro recs k hk
      simp only [List.map_cons, List.mem_cons, not_or] at hk
      have : setAll recs (w :: ws) = setAll (recs.set w.1 w.2) ws := rfl
      rw [this, ih _ _ hk.2, get_set_other _ _ _ _ (Ne.symm hk.1)]
  induction ws with
  | nil => intro recs k v _ h; simp at h
  | cons w ws ih =>
    intro recs k v hnd hmem
    rw [List.map_cons, List.nodup_cons] at hnd
    have hstep : setAll recs (w :: ws) = setAll (recs.set w.1 w.2) ws := rfl
    rcases List.mem_cons.mp hmem with h | h
    · subst h
      rw [hstep, hother _ _ _ hnd.1, get_set_self]
    · rw [hstep]; exact ih _ k v hnd.2 h

theorem keys_nodup (m : Nat) (hm : m ≤ 2 ^ 64) (f : Nat → List Nat) :
    (((List.range m).map (fun i => (PutUint64 i, f i))).map Prod.fst).Nodup := by
  rw [List.map_map]
  apply List.Nodup.map_on _ (List.nodup_range m)
  intro a ha b hb hab
  exact PutUint64_injective a b (by have := List.mem_range.mp ha; omega)
    (by have := List.mem_range.mp hb; omega) hab


theorem lt_ceil_iff (P len i : Nat) (hP : 0 < P) : i < (len + P - 1) / P ↔ i * P < len := by
  rw [Nat.lt_iff_add_one_le, Nat.le_div_iff_mul_le hP, Nat.add_mul]
  omega

theorem page_length (P : Nat) (content : List Nat) (i : Nat) :
    (page P content i).length = min P (content.length - i * P) := by
  simp [page]

theorem fileReads_eq (P : Nat) (hP : 0 < P) (fuel : Nat) : ∀ (content : List Nat),
    content.length ≤ fuel →
    fileReads P fuel content =
      (List.range ((content.length + P - 1) / P)).map (fun i => ⟨page P content i, none⟩) := by
  induction fuel with
  | zero =>
    intro content hc
    have : content = [] := List.length_eq_zero.mp (by omega)
    subst this
    simp [fileReads, Nat.div_eq_of_lt (by omega : P - 1 < P)]
  | succ n ih =>
    intro content hc
    unfold fileReads
    split
    · rename_i h
      subst h
      simp [Nat.div_eq_of_lt (by omega : P - 1 < P)]
    · rename_i hne
      have hpos : 0 < content.length := List.length_pos.mpr hne
      rw [ceil_step P content.length hP hpos, List.range_succ_eq_map, List.map_cons,
        List.map_map, ih (content.drop P) (by rw [List.length_drop]; omega), List.length_drop]
      simp [page, Function.comp, Nat.add_mul, Nat.add_comm]

theorem records_regular (env : Env) (maxRW P : Nat) (content : List Nat) (recs : Records)
    (hrun : RegularRun env maxRW P content recs) (hP : 0 < P)
    (halloc : P ≤ env.maxAlloc) (hrw : P ≤ maxRW) (hlen : content.length < 2 ^ 64) :
    (main env).state.records =
        setAll recs ((List.range ((content.length + P - 1) / P)).map
          (fun i => (PutUint64 i, Sum256 (hashed (List.replicate P 0) P content i)))) ∧
      updates (main env).state.ops =
        (List.range ((content.length + P - 1) / P)).map
          (fun i => (PutUint64 i, Sum256 (hashed (List.replicate P 0) P content i))) := by
  obtain ⟨h1, _, h3⟩ := main_regular env maxRW P content recs hrun hP (by omega) halloc hlen
  rw [Nat.min_eq_left hrw] at h1 h3
  rw [h1, h3, buffers_fileReads P hP _ content _ (Nat.le_refl _) (by simp), writes_range]
  simp

theorem ceil_le (P len : Nat) (hP : 0 < P) : (len + P - 1) / P ≤ len := by
  by_contra h
  have h2 : len < (len + P - 1) / P := by omega
  rw [lt_ceil_iff P len len hP] at h2
  have : len * 1 ≤ len * P := Nat.mul_le_mul_left len hP
  omega


theorem writes_keys (bufs : List (List Nat)) : ∀ (n : Nat),
    (writes n bufs).map Prod.fst = (List.range' n bufs.length).map PutUint64 := by
  induction bufs with
  | nil => intro n; rfl
  | cons b bs ih => intro n; simp [writes, ih, List.range'_succ]

theorem writes_values (bufs : List (List Nat)) : ∀ (n : Nat),
    ∀ e ∈ writes n bufs, e.2.length = SHASize := by
  induction bufs with
  | nil => intro n e he; simp [writes] at he
  | cons b bs ih =>
    intro n e he
    rcases List.mem_cons.mp he with h | h
    · rw [h]; exact Sum256_length b
    · exact ih _ e h

theorem writes_take (bufs : List (List Nat)) : ∀ (n k : Nat),
    (writes n bufs).take k = writes n (bufs.take k) := by
  induction bufs with
  | nil => intro n k; simp [writes]
  | cons b bs ih =>
    intro n k
    cases k with
    | zero => simp [writes]
    | succ k => simp [writes, ih]

theorem setAll_writes (bufs : List (List Nat)) (h : bufs.length ≤ 2 ^ 64) :
    setAll [] (writes 0 bufs) = writes 0 bufs := by
  have hnd : ((writes 0 bufs).map Prod.fst).Nodup := by
    rw [writes_keys]
    apply List.Nodup.map_on _ (List.nodup_range' 0 bufs.length)
    intro a ha b hb hab
    have ha2 := List.mem_range'_1.mp ha
    have hb2 := List.mem_range'_1.mp hb
    exact PutUint64_injective a b (by omega) (by omega) hab
  rw [setAll_fresh _ [] hnd (by simp), List.nil_append]

/-! ## Page count -/

/-- C2, as the code has it: for every run with page size `P > 0` on a regular
file (every `Read` delivers `min(P, remaining)` bytes) against an empty store,
with `P` no larger than the allocation limit of `make`, the final page
counter, the number of `db.Update` calls and the number of records in the
store all equal `ceil(fileSize / P)`; the short final page is stored like the
others. -/
theorem pageCount_eq_ceil (env : Env) (maxRW P : Nat) (content : List Nat)
    (hrun : RegularRun env maxRW P content []) (hP : 0 < P)
    (halloc : P ≤ env.maxAlloc) (hrw : P ≤ maxRW) (hlen : content.length < 2 ^ 64) :
    (main env).state.pageCount = (content.length + P - 1) / P ∧
      (updates (main env).state.ops).length = (content.length + P - 1) / P ∧
      (main env).state.records.length = (content.length + P - 1) / P := by
  obtain ⟨_, h2, _⟩ := main_regular env maxRW P content [] hrun hP (by omega) halloc hlen
  rw [Nat.min_eq_left hrw] at h2
  obtain ⟨h4, h5⟩ := records_regular env maxRW P content [] hrun hP halloc hrw hlen
  refine ⟨by rw [h2, fileReads_length P hP], by rw [h5]; simp, ?_⟩
  have hm : (content.length + P - 1) / P ≤ 2 ^ 64 := by
    have := ceil_le P content.length hP
    omega
  rw [h4, setAll_fresh _ [] (keys_nodup _ hm _) (by simp)]
  simp

theorem pageCount_eq_ceil_witness :
    (main (fileEnv 4 [1, 2, 3, 4, 5, 6, 7, 8, 9] [] 1 281474976710656 1073741824)).state.pageCount
        = (9 + 4 - 1) / 4 ∧
      (updates (main (fileEnv 4 [1, 2, 3, 4, 5, 6, 7, 8, 9] [] 1 281474976710656
        1073741824)).state.ops).length = (9 + 4 - 1) / 4 ∧
      (main (fileEnv 4 [1, 2, 3, 4, 5, 6, 7, 8, 9] [] 1 281474976710656
        1073741824)).state.records.length = (9 + 4 - 1) / 4 :=
  pageCount_eq_ceil (fileEnv 4 [1, 2, 3, 4, 5, 6, 7, 8, 9] [] 1 281474976710656 1073741824)
    1073741824 4 [1, 2, 3, 4, 5, 6, 7, 8, 9]
    (fileEnv_regular 4 [1, 2, 3, 4, 5, 6, 7, 8, 9] [] 1 281474976710656 1073741824)
    (by decide) (by decide) (by decide) (by simp)

/-- C2 fails as stated: with page size `2^62` on a one-byte file, where
`ceil(fileSize / P)` is 1, `make` panics (the allocation limit is `2^48`),
the loop is never entered, the page counter stays 0 and nothing is stored. -/
theorem oversized_page_stores_nothing :
    (1 + 4611686018427387904 - 1) / 4611686018427387904 = 1 ∧
      (main (fileEnv 4611686018427387904 [1] [] 1 281474976710656 1073741824)).outcome =
        .panicked .makeslice ∧
      (main (fileEnv 4611686018427387904 [1] [] 1 281474976710656 1073741824)).state.pageCount =
        0 ∧
      (main (fileEnv 4611686018427387904 [1] [] 1 281474976710656 1073741824)).state.records =
        [] ∧
      updates (main (fileEnv 4611686018427387904 [1] [] 1 281474976710656
        1073741824)).state.ops = [] := by
  decide

/-! ## Whole pages -/

/-- C9, as the code has it: when the file holds exactly `k` pages of `P > 0`
bytes, with `P` no larger than the allocation limit of `make` and no larger
than one `Read` transfers (so that every `Read` of the regular file fills the
buffer), a run against an empty store leaves exactly `k` records: record `i`
has the little-endian encoding of `i` as its key and the 32-byte SHA-256
digest of the file's bytes `i*P` to `(i+1)*P - 1` as its value. -/
theorem exact_pages (env : Env) (maxRW P k : Nat) (content : List Nat)
    (hrun : RegularRun env maxRW P content []) (hP : 0 < P)
    (halloc : P ≤ env.maxAlloc) (hrw : P ≤ maxRW)
    (hk : content.length = k * P) (hlen : content.length < 2 ^ 64) :
    (main env).state.records =
        (List.range k).map (fun i => (PutUint64 i, Sum256 (page P content i))) ∧
      (main env).state.records.length = k ∧
      ∀ i, i < k → (page P content i).length = P ∧ (Sum256 (page P content i)).length = 32 := by
  have hceil : (content.length + P - 1) / P = k := by
    rw [hk]
    have : k * P + P - 1 = (P - 1) + P * k := by rw [Nat.mul_comm]; omega
    rw [this, Nat.add_mul_div_left _ _ hP, Nat.div_eq_of_lt (by omega : P - 1 < P)]
    omega
  have hfull : ∀ i, i < k → (page P content i).length = P := by
    intro i hi
    rw [page_length, hk, ← Nat.sub_mul]
    have : 1 * P ≤ (k - i) * P := Nat.mul_le_mul_right P (by omega)
    omega
  have hrec : (main env).state.records =
      (List.range k).map (fun i => (PutUint64 i, Sum256 (page P content i))) := by
    obtain ⟨h4, _⟩ := records_regular env maxRW P content [] hrun hP halloc hrw hlen
    have hm : (content.length + P - 1) / P ≤ 2 ^ 64 := by
      have := ceil_le P content.length hP
      omega
    rw [h4, setAll_fresh _ [] (keys_nodup _ hm _) (by simp), hceil, List.nil_append]
    apply List.map_congr_left
    intro i hi
    have hi2 := List.mem_range.mp hi
    have hprev : (if i = 0 then List.replicate P 0 else page P content (i - 1)).length = P := by
      split
      · simp
      · exact hfull (i - 1) (by omega)
    have : hashed (List.replicate P 0) P content i = page P content i := by
      unfold hashed
      rw [List.drop_of_length_le (by rw [hprev, hfull i hi2]), List.append_nil]
    rw [this]
  refine ⟨hrec, by rw [hrec]; simp, fun i hi => ⟨hfull i hi, Sum256_length _⟩⟩

theorem exact_pages_witness :
    (List.replicate 24576 0).length = 3 * 8192 ∧
    (main (fileEnv 8192 (List.replicate 24576 0) [] 1 281474976710656 1073741824)).state.records =
        (List.range 3).map
          (fun i => (PutUint64 i, Sum256 (page 8192 (List.replicate 24576 0) i))) ∧
      (main (fileEnv 8192 (List.replicate 24576 0) [] 1 281474976710656
        1073741824)).state.records.length = 3 ∧
      ∀ i, i < 3 → (page 8192 (List.replicate 24576 0) i).length = 8192 ∧
        (Sum256 (page 8192 (List.replicate 24576 0) i)).length = 32 :=
  ⟨List.length_replicate 24576 0,
    exact_pages (fileEnv 8192 (List.replicate 24576 0) [] 1 281474976710656 1073741824)
      1073741824 8192 3 (List.replicate 24576 0)
      (fileEnv_regular 8192 (List.replicate 24576 0) [] 1 281474976710656 1073741824)
      (by decide) (by decide) (by decide) (List.length_replicate 24576 0)
      (by rw [List.length_replicate]; norm_num)⟩

/-- C9 fails as stated, in two ways.  A file of exactly one page of `2^31`
bytes is read in two transfers of `2^30` bytes, the most one `Read` delivers,
so the run makes two writes and leaves two records instead of one.  A file of
exactly one page of `2^62` bytes is never read: `make` panics (the allocation
limit is `2^48`) and no record is left. -/
theorem whole_page_not_one_record :
    (List.replicate 2147483648 0).length = 1 * 2147483648 ∧
      (main (fileEnv 2147483648 (List.replicate 2147483648 0) [] 1 281474976710656
        1073741824)).state.records.length = 2 ∧
      (updates (main (fileEnv 2147483648 (List.replicate 2147483648 0) [] 1 281474976710656
        1073741824)).state.ops).length = 2 ∧
      (List.replicate 4611686018427387904 0).length = 1 * 4611686018427387904 ∧
      (main (fileEnv 4611686018427387904 (List.replicate 4611686018427387904 0) [] 1
        281474976710656 1073741824)).outcome = .panicked .makeslice ∧
      (main (fileEnv 4611686018427387904 (List.replicate 4611686018427387904 0) [] 1
        281474976710656 1073741824)).state.records = [] := by
  obtain ⟨h1, _, h3⟩ := main_regular
    (fileEnv 2147483648 (List.replicate 2147483648 0) [] 1 281474976710656 1073741824)
    1073741824 2147483648 (List.replicate 2147483648 0) []
    (fileEnv_regular 2147483648 (List.replicate 2147483648 0) [] 1 281474976710656 1073741824)
    (by norm_num) (by norm_num) (by norm_num [fileEnv])
    (by rw [List.length_replicate]; norm_num)
  obtain ⟨h4, h5, _, _⟩ := main_oversized
    (fileEnv 4611686018427387904 (List.replicate 4611686018427387904 0) [] 1 281474976710656
      1073741824)
    1073741824 4611686018427387904 (List.replicate 4611686018427387904 0) []
    (fileEnv_regular 4611686018427387904 (List.replicate 4611686018427387904 0) [] 1
      281474976710656 1073741824)
    (by norm_num [fileEnv])
  have hmin : min 2147483648 1073741824 = 1073741824 := by norm_num
  have hcount : (fileReads 1073741824 (List.replicate 2147483648 0).length
      (List.replicate 2147483648 0)).length = 2 := by
    rw [fileReads_length 1073741824 (by norm_num), List.length_replicate]
  rw [hmin] at h1 h3
  have hbufs : (buffers (fileReads 1073741824 (List.replicate 2147483648 0).length
      (List.replicate 2147483648 0)) (List.replicate 2147483648 0)).length = 2 := by
    rw [buffers_length, hcount]
  refine ⟨List.length_replicate _ _, ?_, ?_, List.length_replicate _ _, h4, h5⟩
  · rw [h1, setAll_writes _ (by rw [hbufs]; norm_num), writes_length, hbufs]
  · rw [h3, writes_length, hbufs]

/-! ## The hashed buffer -/

/-- C10: every iteration hashes the whole `P`-byte buffer.  In every run with
page size `P > 0` on a regular file, with `P` no larger than the allocation
limit of `make` and no larger than one `Read` transfers (so that every `Read`
delivers `min(P, remaining)` bytes), the value stored at key `i` is the
SHA-256 digest of a sequence of exactly `P` bytes: the bytes of the `i`-th
read, then the bytes the buffer held behind them before that read, which are
those of page `i - 1`, or zeros for the first page. -/
theorem whole_buffer_hashed (env : Env) (maxRW P : Nat) (content : List Nat) (recs : Records)
    (hrun : RegularRun env maxRW P content recs)
    (hP : 0 < P) (halloc : P ≤ env.maxAlloc) (hrw : P ≤ maxRW)
    (hlen : content.length < 2 ^ 64) (i : Nat)
    (hi : i < (content.length + P - 1) / P) :
    ((fileReads P content.length content).map ReadReply.bytes)[i]? = some (page P content i) ∧
      (main env).state.records.get (PutUint64 i) =
        some (Sum256 (hashed (List.replicate P 0) P content i)) ∧
      (hashed (List.replicate P 0) P content i).length = P ∧
      (hashed (List.replicate P 0) P content i).take (page P content i).length =
        page P content i ∧
      (hashed (List.replicate P 0) P content i).drop (page P content i).length =
        (if i = 0 then List.replicate P 0 else page P content (i - 1)).drop
          (page P content i).length := by
  have hm : (content.length + P - 1) / P ≤ 2 ^ 64 := by
    have := ceil_le P content.length hP
    omega
  have hiP := (lt_ceil_iff P content.length i hP).mp hi
  refine ⟨?_, ?_, ?_, ?_, ?_⟩
  · rw [fileReads_eq P hP _ content (Nat.le_refl _)]
    simp [hi]
  · obtain ⟨h4, _⟩ := records_regular env maxRW P content recs hrun hP halloc hrw hlen
    rw [h4]
    apply get_setAll _ _ _ _ (keys_nodup _ hm _)
    exact List.mem_map.mpr ⟨i, List.mem_range.mpr hi, rfl⟩
  · have hprev : (if i = 0 then List.replicate P 0 else page P content (i - 1)).length = P := by
      split
      · simp
      · rename_i h0
        rw [page_length]
        have : (i - 1) * P + P = i * P := by
          obtain ⟨j, rfl⟩ : ∃ j, i = j + 1 := ⟨i - 1, by omega⟩
          simp [Nat.add_mul]
        omega
    unfold hashed
    rw [List.length_append, List.length_drop, hprev, page_length]
    omega
  · simp [hashed]
  · simp [hashed]

theorem whole_buffer_hashed_witness :
    (((fileReads 2 [1, 2, 3].length [1, 2, 3]).map ReadReply.bytes)[1]? =
        some (page 2 [1, 2, 3] 1) ∧
      (main (fileEnv 2 [1, 2, 3] [] 1 281474976710656 1073741824)).state.records.get
          (PutUint64 1) =
        some (Sum256 (hashed (List.replicate 2 0) 2 [1, 2, 3] 1)) ∧
      (hashed (List.replicate 2 0) 2 [1, 2, 3] 1).length = 2 ∧
      (hashed (List.replicate 2 0) 2 [1, 2, 3] 1).take (page 2 [1, 2, 3] 1).length =
        page 2 [1, 2, 3] 1 ∧
      (hashed (List.replicate 2 0) 2 [1, 2, 3] 1).drop (page 2 [1, 2, 3] 1).length =
        (if 1 = 0 then List.replicate 2 0 else page 2 [1, 2, 3] (1 - 1)).drop
          (page 2 [1, 2, 3] 1).length) ∧
      page 2 [1, 2, 3] 1 = [3] ∧ hashed (List.replicate 2 0) 2 [1, 2, 3] 1 = [3, 2] :=
  ⟨whole_buffer_hashed (fileEnv 2 [1, 2, 3] [] 1 281474976710656 1073741824) 1073741824 2
      [1, 2, 3] [] (fileEnv_regular 2 [1, 2, 3] [] 1 281474976710656 1073741824)
      (by decide) (by decide) (by decide) (by simp) 1 (by decide),
    by decide, by decide⟩


/-! ## Every run -/

theorem setKV_updates (key : Nat) (val : List Nat) (s : State) :
    updates (setKV key val s).state.ops = updates s.ops ++ [(PutUint64 key, val)] ∧
      (setKV key val s).state.pageCount = s.pageCount := by
  unfold setKV
  simp only [State.op, List.take_length]
  cases s.g.db with
  | none => simp [Step.state, updates_append, updates]
  | some d =>
    simp only
    cases (dbUpdate d (PutUint64 key) val).1 with
    | none => simp [checkError, Step.state, updates_append, updates]
    | some e => simp [checkError, Step.state, State.print, updates_append, updates]

/-- The `db.Update` calls of the read loop, whatever the file and the store
answer: the keys count up from the page counter, one digest each. -/
theorem readLoop_updates (script : List ReadReply) : ∀ (data : List Nat) (s : State),
    s.pageCount + script.length < 2 ^ 64 →
    ∃ bufs, updates (readLoop script data s).state.ops =
      updates s.ops ++ writes s.pageCount bufs ∧ bufs.length ≤ script.length := by
  induction script with
  | nil =>
    intro data s _
    exact ⟨[], by simp [readLoop, Step.state, State.op, updates_append, updates, writes], by simp⟩
  | cons r rest ih =>
    intro data s hn
    simp only [List.length_cons] at hn
    unfold readLoop
    simp only
    split
    · exact ⟨[], by simp [Step.state, State.op, updates_append, updates, writes], by simp⟩
    · cases r.err with
      | some e =>
        exact ⟨[], by simp [checkError, Step.andThen, Step.state, State.op, State.print,
          updates_append, updates, writes], by simp⟩
      | none =>
        simp only [checkError, Step.andThen]
        have hkv := setKV_updates (s.op (.fileRead (min r.bytes.length data.length))).pageCount
          (Sum256 (readInto r.bytes data)) (s.op (.fileRead (min r.bytes.length data.length)))
        cases hstep : setKV (s.op (.fileRead (min r.bytes.length data.length))).pageCount
          (Sum256 (readInto r.bytes data)) (s.op (.fileRead (min r.bytes.length data.length))) with
        | halt o s2 =>
          rw [hstep] at hkv
          refine ⟨[readInto r.bytes data], ?_, by simp⟩
          simp only [Step.state] at hkv ⊢
          rw [hkv.1]
          simp [State.op, updates_append, updates, writes]
        | next s2 =>
          rw [hstep] at hkv
          simp only [Step.state] at hkv
          have hpc : s2.pageCount = s.pageCount := hkv.2
          have hmod : (s2.pageCount + 1) % 2 ^ 64 = s.pageCount + 1 := by
            rw [hpc]; exact Nat.mod_eq_of_lt (by omega)
          obtain ⟨bufs, hb, hbl⟩ := ih (readInto r.bytes data)
            ⟨s2.g, (s2.pageCount + 1) % 2 ^ 64, s2.ops, s2.out⟩ (by simp only [hmod]; omega)
          refine ⟨readInto r.bytes data :: bufs, ?_, by simpa using hbl⟩
          simp only
          rw [hb, hkv.1, hmod]
          simp [State.op, updates_append, updates, writes]

/-- Up to the opening of the input file the program has opened the store and
done nothing else to the store or to files. -/
theorem prelude_ops (env : Env) :
    (((openDb env State.initial).andThen (parseArgs env)).andThen echoArgs).state.ops =
        [.dbOpen] ∧
      (((openDb env State.initial).andThen (parseArgs env)).andThen echoArgs).state.pageCount =
        0 := by
  unfold openDb parseArgs echoArgs
  simp only [State.initial, State.op, State.print]
  cases env.db with
  | error e => exact ⟨rfl, rfl⟩
  | ok d =>
    by_cases h1 : env.flagErr = true
    · simp [h1, Step.andThen, Step.state]
    · by_cases h2 : env.flags.args.length = 0
      · simp [h1, h2, Step.andThen, Step.state]
      · by_cases h3 : env.flags.cmethod ≠ CompressGzip ∧ env.flags.cmethod ≠ CompressLz4
        · simp [h1, h2, h3, Step.andThen, Step.state]
        · simp [h1, h2, h3, Step.andThen, Step.state]

theorem main_updates (env : Env)
    (hreads : ∀ name f, env.fs name = .ok f → f.reads.length < 2 ^ 64) :
    ∃ bufs, updates (main env).state.ops = writes 0 bufs ∧ bufs.length < 2 ^ 64 := by
  unfold main
  have hpre : ∀ s, ((openDb env State.initial).andThen (parseArgs env)).andThen echoArgs
      = .next s → updates s.ops = [] ∧ s.pageCount = 0 := by
    intro s h
    have := prelude_ops env
    rw [h] at this
    simp only [Step.state] at this
    rw [this.1, this.2]
    exact ⟨rfl, rfl⟩
  have hhalt : ∀ o s, ((openDb env State.initial).andThen (parseArgs env)).andThen echoArgs
      = .halt o s → updates s.ops = [] := by
    intro o s h
    have := prelude_ops env
    rw [h] at this
    simp only [Step.state] at this
    rw [this.1]
    rfl
  cases hp : ((openDb env State.initial).andThen (parseArgs env)).andThen echoArgs with
  | halt o s =>
    exact ⟨[], by simp [Step.andThen, Step.state, hhalt o s hp, writes], by simp⟩
  | next s =>
    obtain ⟨hu, hpc⟩ := hpre s hp
    simp only [Step.andThen]
    cases hf : env.fs s.g.inFileName with
    | error e =>
      exact ⟨[], by simp [checkError, Step.state, State.op, State.print, updates_append,
        updates, hu, writes], by simp⟩
    | ok fId1 =>
      simp only
      cases fId1.stat with
      | error e =>
        exact ⟨[], by simp [checkError, Step.state, State.op, State.print, updates_append,
          updates, hu, writes], by simp⟩
      | ok fSz =>
        simp only
        split
        · exact ⟨[], by simp [Step.state, State.op, updates_append, updates, hu, writes],
            by simp⟩
        · obtain ⟨bufs, hb, hbl⟩ := readLoop_updates fId1.reads
            (List.replicate ((s.op (.fileOpen s.g.inFileName)).op .fileStat).g.pageSize.toNat 0)
            ((s.op (.fileOpen s.g.inFileName)).op .fileStat)
            (by
              have := hreads _ _ hf
              simp only [State.op, hpc]
              omega)
          refine ⟨bufs, ?_, Nat.lt_of_le_of_lt hbl (hreads _ _ hf)⟩
          have hb2 : updates (readLoop fId1.reads
              (List.replicate ((s.op (.fileOpen s.g.inFileName)).op .fileStat).g.pageSize.toNat 0)
              ((s.op (.fileOpen s.g.inFileName)).op .fileStat)).state.ops = writes 0 bufs := by
            rw [hb]
            simp [State.op, updates_append, updates, hu, hpc]
          cases hl : readLoop fId1.reads
              (List.replicate ((s.op (.fileOpen s.g.inFileName)).op .fileStat).g.pageSize.toNat 0)
              ((s.op (.fileOpen s.g.inFileName)).op .fileStat) with
          | halt o s2 =>
            rw [hl] at hb2
            simpa [Step.andThen, Step.state] using hb2
          | next s2 =>
            rw [hl] at hb2
            simp only [Step.state] at hb2
            simp only [Step.andThen]
            split <;>
              simp [Step.state, State.op, State.print, updates_append, updates, hb2]


/-! ## Key encoding of `setKV` -/

/-- C6: the key `setKV` uses for page index `k` is `PutUint64 k`; it always has
exactly 8 bytes, and for every `k < 2^64` little-endian decoding gives `k`
back, so distinct indices below `2^64` get distinct keys. -/
theorem key_roundtrip (k : Nat) (hk : k < 2 ^ 64) :
    (∀ (val : List Nat) (s : State),
        updates (setKV k val s).state.ops = updates s.ops ++ [(PutUint64 k, val)]) ∧
      (PutUint64 k).length = 8 ∧
      Uint64 (PutUint64 k) = some k ∧
      ∀ j, j < 2 ^ 64 → PutUint64 j = PutUint64 k → j = k :=
  ⟨fun val s => (setKV_updates k val s).1, rfl, Uint64_PutUint64 k hk,
    fun j hj h => PutUint64_injective j k hj hk h⟩

theorem key_roundtrip_witness :
    (∀ (val : List Nat) (s : State),
        updates (setKV 4294967295 val s).state.ops =
          updates s.ops ++ [(PutUint64 4294967295, val)]) ∧
      (PutUint64 4294967295).length = 8 ∧
      Uint64 (PutUint64 4294967295) = some 4294967295 ∧
      ∀ j, j < 2 ^ 64 → PutUint64 j = PutUint64 4294967295 → j = 4294967295 :=
  key_roundtrip 4294967295 (by norm_num)

/-! ## Determinism -/

/-- C7: the records a run leaves depend on the file content and the page size
alone.  Two runs with the same page size `P > 0` on regular files of the same
content, each against its own empty store, under the same limits of `make`
and `Read`, leave the same records and make the same sequence of writes,
whatever their other flags, file names, reported file sizes and durations.
When `P` is within both limits the records are, in order, the digests of the
successive buffer contents under the keys 0, 1, 2, ..., one per write. -/
theorem deterministic_records (env1 env2 : Env) (maxRW P : Nat) (content : List Nat)
    (hrun1 : RegularRun env1 maxRW P content []) (hrun2 : RegularRun env2 maxRW P content [])
    (hmax : env1.maxAlloc = env2.maxAlloc)
    (hP : 0 < P) (hrw : 0 < maxRW) (hlen : content.length < 2 ^ 64) :
    (main env1).state.records = (main env2).state.records ∧
      updates (main env1).state.ops = updates (main env2).state.ops ∧
      (P ≤ env1.maxAlloc → P ≤ maxRW →
        (main env1).state.records =
            (List.range ((content.length + P - 1) / P)).map
              (fun i => (PutUint64 i, Sum256 (hashed (List.replicate P 0) P content i))) ∧
          updates (main env1).state.ops = (main env1).state.records) := by
  have hclosed : P ≤ env1.maxAlloc → P ≤ maxRW →
      (main env1).state.records =
          (List.range ((content.length + P - 1) / P)).map
            (fun i => (PutUint64 i, Sum256 (hashed (List.replicate P 0) P content i))) ∧
        updates (main env1).state.ops = (main env1).state.records := by
    intro halloc hrw2
    obtain ⟨h1, h2⟩ := records_regular env1 maxRW P content [] hrun1 hP halloc hrw2 hlen
    have hm : (content.length + P - 1) / P ≤ 2 ^ 64 := by
      have := ceil_le P content.length hP
      omega
    have hfresh := setAll_fresh ((List.range ((content.length + P - 1) / P)).map
      (fun i => (PutUint64 i, Sum256 (hashed (List.replicate P 0) P content i)))) []
      (keys_nodup _ hm _) (by simp)
    rw [List.nil_append] at hfresh
    rw [hfresh] at h1
    exact ⟨h1, by rw [h1, h2]⟩
  by_cases halloc : P ≤ env1.maxAlloc
  · obtain ⟨h1, _, h2⟩ := main_regular env1 maxRW P content [] hrun1 hP hrw halloc hlen
    obtain ⟨h3, _, h4⟩ := main_regular env2 maxRW P content [] hrun2 hP hrw
      (by rw [← hmax]; exact halloc) hlen
    exact ⟨by rw [h1, h3], by rw [h2, h4], hclosed⟩
  · obtain ⟨_, h1, _, h2⟩ := main_oversized env1 maxRW P content [] hrun1 (by omega)
    obtain ⟨_, h3, _, h4⟩ := main_oversized env2 maxRW P content [] hrun2
      (by rw [← hmax]; omega)
    exact ⟨by rw [h1, h3], by rw [h2, h4], hclosed⟩

theorem deterministic_records_witness :
    (main (fileEnv 2 [1, 2, 3] [] 1 281474976710656 1073741824)).state.records =
        (main ⟨.ok ⟨[], [none]⟩, false, ⟨2, 1, false, 3, true, ["copy.bin", "more"]⟩,
          fun _ => .ok ⟨.ok 77, fileReads 2 3 [1, 2, 3]⟩, 0, 281474976710656⟩).state.records ∧
      updates (main (fileEnv 2 [1, 2, 3] [] 1 281474976710656 1073741824)).state.ops =
        updates (main ⟨.ok ⟨[], [none]⟩, false, ⟨2, 1, false, 3, true, ["copy.bin", "more"]⟩,
          fun _ => .ok ⟨.ok 77, fileReads 2 3 [1, 2, 3]⟩, 0, 281474976710656⟩).state.ops ∧
      (2 ≤ 281474976710656 → 2 ≤ 1073741824 →
        (main (fileEnv 2 [1, 2, 3] [] 1 281474976710656 1073741824)).state.records =
            (List.range (([1, 2, 3].length + 2 - 1) / 2)).map
              (fun i => (PutUint64 i, Sum256 (hashed (List.replicate 2 0) 2 [1, 2, 3] i))) ∧
          updates (main (fileEnv 2 [1, 2, 3] [] 1 281474976710656 1073741824)).state.ops =
            (main (fileEnv 2 [1, 2, 3] [] 1 281474976710656 1073741824)).state.records) :=
  deterministic_records (fileEnv 2 [1, 2, 3] [] 1 281474976710656 1073741824)
    ⟨.ok ⟨[], [none]⟩, false, ⟨2, 1, false, 3, true, ["copy.bin", "more"]⟩,
      fun _ => .ok ⟨.ok 77, fileReads 2 3 [1, 2, 3]⟩, 0, 281474976710656⟩ 1073741824 2
    [1, 2, 3]
    (fileEnv_regular 2 [1, 2, 3] [] 1 281474976710656 1073741824)
    ⟨⟨[none], rfl, by simp⟩, rfl, by simp, Or.inr rfl, rfl, 77, rfl⟩
    rfl (by decide) (by decide) (by simp)

/-! ## Stored records -/

/-- C8, as the code has it: at every point of a run (every initial part of its
sequence of operations) the keys of the `db.Update` calls made so far are the
encodings of 0, 1, 2, ... in order and are pairwise distinct, so no call
targets a key written earlier in the same run, and every value written has
exactly 32 bytes.  This holds for every environment whose files answer fewer
than `2^64` reads.  Nothing is said about keys the store held before the run. -/
theorem keys_distinct_within_run (env : Env)
    (hreads : ∀ name f, env.fs name = .ok f → f.reads.length < 2 ^ 64)
    (pre suf : List Op) (hrun : (main env).state.ops = pre ++ suf) :
    (updates pre).map Prod.fst = (List.range (updates pre).length).map PutUint64 ∧
      ((updates pre).map Prod.fst).Nodup ∧
      ∀ e ∈ updates pre, e.2.length = 32 := by
  obtain ⟨bufs, hb, hbl⟩ := main_updates env hreads
  rw [hrun, updates_append] at hb
  have hpre : updates pre = writes 0 (bufs.take (updates pre).length) := by
    rw [← writes_take, ← hb, List.take_left]
  have hlen : (bufs.take (updates pre).length).length = (updates pre).length := by
    have := congrArg List.length hpre
    rw [writes_length] at this
    exact this.symm
  have hkeys : (updates pre).map Prod.fst = (List.range (updates pre).length).map PutUint64 := by
    conv_lhs => rw [hpre]
    rw [writes_keys, hlen, List.range_eq_range']
  refine ⟨hkeys, ?_, ?_⟩
  · rw [hkeys]
    apply List.Nodup.map_on _ (List.nodup_range _)
    intro a ha b hb2 hab
    have hbound : (updates pre).length < 2 ^ 64 := by
      rw [← hlen, List.length_take]
      omega
    exact PutUint64_injective a b (by have := List.mem_range.mp ha; omega)
      (by have := List.mem_range.mp hb2; omega) hab
  · intro e he
    rw [hpre] at he
    exact writes_values _ 0 e he

theorem keys_distinct_within_run_witness :
    (updates (main (fileEnv 2 [1, 2, 3] [(PutUint64 0, [9])] 1 281474976710656 1073741824)).state.ops).map Prod.fst =
        (List.range (updates (main (fileEnv 2 [1, 2, 3] [(PutUint64 0, [9])] 1 281474976710656 1073741824)).state.ops).length).map
          PutUint64 ∧
      ((updates (main (fileEnv 2 [1, 2, 3] [(PutUint64 0, [9])] 1 281474976710656 1073741824)).state.ops).map
        Prod.fst).Nodup ∧
      ∀ e ∈ updates (main (fileEnv 2 [1, 2, 3] [(PutUint64 0, [9])] 1 281474976710656 1073741824)).state.ops,
        e.2.length = 32 :=
  keys_distinct_within_run (fileEnv 2 [1, 2, 3] [(PutUint64 0, [9])] 1 281474976710656 1073741824)
    (fun _ f h => by
      cases h
      decide)
    (main (fileEnv 2 [1, 2, 3] [(PutUint64 0, [9])] 1 281474976710656 1073741824)).state.ops []
    (List.append_nil _).symm

/-- C8 fails as stated: `openDb` opens whatever `/tmp/badger` holds.  When the
store already holds a record at key 0 (left by an earlier run), the first
`setKV` call of a run on a one-byte file targets that key and the record is
replaced. -/
theorem record_updated_across_runs :
    Records.get [(PutUint64 0, List.replicate 32 0)] (PutUint64 0) =
        some (List.replicate 32 0) ∧
      updates (main (fileEnv 1 [7] [(PutUint64 0, List.replicate 32 0)] 1 281474976710656
        1073741824)).state.ops =
        [(PutUint64 0, Sum256 [7])] ∧
      (main (fileEnv 1 [7] [(PutUint64 0, List.replicate 32 0)] 1 281474976710656
        1073741824)).state.records.get
        (PutUint64 0) = some (Sum256 [7]) ∧
      Sum256 [7] ≠ List.replicate 32 0 := by
  set_option maxRecDepth 100000 in decide


/-! ## Configuration errors -/

/-- C5, as the code has it: with a compression method other than 0 and 1 the
run never returns normally and its only store or file operation is the
opening of the store, which `main` does before it parses the arguments: no
file is opened or read and no record is written.  When the store opens and
the command line has a file argument, the run ends in the panic of
`parseArgs`. -/
theorem bad_cmethod_after_openDb (env : Env)
    (h0 : env.flags.cmethod ≠ 0) (h1 : env.flags.cmethod ≠ 1) :
    (main env).state.ops = [.dbOpen] ∧
      (main env).outcome ≠ .returned ∧
      (∀ d, env.db = .ok d → env.flagErr = false → env.flags.args ≠ [] →
        (main env).outcome = .panicked (.str "Wrong compression method supplied")) := by
  have h3 : env.flags.cmethod ≠ CompressGzip ∧ env.flags.cmethod ≠ CompressLz4 := ⟨h0, h1⟩
  unfold main openDb parseArgs echoArgs
  simp only [State.initial, State.op, State.print]
  cases env.db with
  | error e => simp [Step.andThen, Step.state, Step.outcome]
  | ok d =>
    by_cases hf : env.flagErr = true
    · simp [hf, Step.andThen, Step.state, Step.outcome]
    · by_cases ha : env.flags.args.length = 0
      · have ha2 : env.flags.args = [] := List.length_eq_zero.mp ha
        simp [hf, ha, ha2, Step.andThen, Step.state, Step.outcome]
      · simp [hf, ha, h3, Step.andThen, Step.state, Step.outcome]

theorem bad_cmethod_after_openDb_witness :
    (main ⟨.ok ⟨[], []⟩, false, ⟨8192, 2, true, 0, false, ["input"]⟩,
        fun _ => .ok (regularFile 1073741824 8192 [1, 2, 3]), 1, 281474976710656⟩).state.ops = [.dbOpen] ∧
      (main ⟨.ok ⟨[], []⟩, false, ⟨8192, 2, true, 0, false, ["input"]⟩,
        fun _ => .ok (regularFile 1073741824 8192 [1, 2, 3]), 1, 281474976710656⟩).outcome ≠ .returned ∧
      (∀ d, (Except.ok ⟨[], []⟩ : Except Error DB) = .ok d → false = false →
        ["input"] ≠ [] →
        (main ⟨.ok ⟨[], []⟩, false, ⟨8192, 2, true, 0, false, ["input"]⟩,
          fun _ => .ok (regularFile 1073741824 8192 [1, 2, 3]), 1, 281474976710656⟩).outcome =
          .panicked (.str "Wrong compression method supplied")) :=
  bad_cmethod_after_openDb ⟨.ok ⟨[], []⟩, false, ⟨8192, 2, true, 0, false, ["input"]⟩,
    fun _ => .ok (regularFile 1073741824 8192 [1, 2, 3]), 1, 281474976710656⟩ (by decide) (by decide)

/-- C5 fails as stated: with compression method 2 the store has been opened
by the time `parseArgs` rejects the command line. -/
theorem openDb_precedes_rejection :
    (main ⟨.ok ⟨[], []⟩, false, ⟨8192, 2, true, 0, false, ["data.bin"]⟩,
        fun _ => .ok (regularFile 1073741824 8192 []), 1, 281474976710656⟩).outcome =
        .panicked (.str "Wrong compression method supplied") ∧
      Op.dbOpen ∈ (main ⟨.ok ⟨[], []⟩, false, ⟨8192, 2, true, 0, false, ["data.bin"]⟩,
        fun _ => .ok (regularFile 1073741824 8192 []), 1, 281474976710656⟩).state.ops := by
  decide

/-! ## Evaluations of the code where it leaves a claim -/

/-- C1 on a three-byte file with page size 2: the second `Read` delivers the
one byte 3, the buffer then holds 3 followed by the byte 2 of the first page,
and the value stored at key 1 is the digest of both bytes, which differs from
the digest of the byte read. -/
theorem stale_bytes_hashed :
    (fileReads 2 3 [1, 2, 3]).map ReadReply.bytes = [[1, 2], [3]] ∧
      (main (fileEnv 2 [1, 2, 3] [] 1 281474976710656 1073741824)).state.records.get
          (PutUint64 1) = some (Sum256 [3, 2]) ∧
      Sum256 [3, 2] ≠ Sum256 [3] := by
  set_option maxRecDepth 100000 in decide

/-- C3 on an empty file with page size 8192 and a run shorter than a second:
nothing is stored and the page counter is 0, but the division by the zero
seconds panics and no report line is printed. -/
theorem empty_file_divides_by_zero :
    (main (fileEnv 8192 [] [] 0 281474976710656 1073741824)).outcome = .panicked .divideByZero ∧
      (main (fileEnv 8192 [] [] 0 281474976710656 1073741824)).state.records = [] ∧
      (main (fileEnv 8192 [] [] 0 281474976710656 1073741824)).state.pageCount = 0 ∧
      (main (fileEnv 8192 [] [] 0 281474976710656 1073741824)).state.out = [.echo 8192 "input"] := by
  decide

/-- C4 on a file whose first `Read` returns no bytes and an error other than
`io.EOF`: the loop ends as at the end of input and the run reports 0 pages and
returns; the same error together with one byte does panic. -/
theorem read_error_without_bytes_ignored :
    (main ⟨.ok ⟨[], []⟩, false, ⟨16, 0, true, 0, false, ["input"]⟩,
        fun _ => .ok ⟨.ok 100, [⟨[], some (.other 5)⟩]⟩, 1, 281474976710656⟩).outcome = .returned ∧
      (main ⟨.ok ⟨[], []⟩, false, ⟨16, 0, true, 0, false, ["input"]⟩,
        fun _ => .ok ⟨.ok 100, [⟨[], some (.other 5)⟩]⟩, 1, 281474976710656⟩).state.out =
        [.echo 16 "input", .report 0 100 100] ∧
      (main ⟨.ok ⟨[], []⟩, false, ⟨16, 0, true, 0, false, ["input"]⟩,
        fun _ => .ok ⟨.ok 100, [⟨[7], some (.other 5)⟩]⟩, 1, 281474976710656⟩).outcome =
        .panicked (.err (.other 5)) := by
  decide

end Badgertest
